import Mathlib

/-!
Shallow embedding of the substreams engine core, translated from the Go
sources: the block-range algebra (block/range.go), the back-processing work
planner (orchestrator work plan), the store max-policy operations, the WASM
instance execution contract (wasm/instance.go) and the module executors
(pipeline/executor.go), together with proofs of the specification claims
about them.  Go `uint64` block numbers are modelled as `Nat`; fallible code
(Go panics, non-terminating loops) is modelled with `Option`.
-/

namespace Substreams

/-- A half-open block interval `[StartBlock, ExclusiveEndBlock)`
(block/range.go, `type Range struct`). -/
structure Range where
  StartBlock : Nat
  ExclusiveEndBlock : Nat
  deriving DecidableEq, Repr

/-- `Range.Contains` (block/range.go:27): the block number lies in the
half-open interval. -/
def Range.Contains (r : Range) (blockNum : Nat) : Bool :=
  decide (blockNum ≥ r.StartBlock) && decide (blockNum < r.ExclusiveEndBlock)

/-- `2^64`, the modulus of Go's `uint64` arithmetic. -/
def U64 : Nat := 18446744073709551616

/-- `uint64` addition: wraps modulo `2^64`. -/
def add64 (a b : Nat) : Nat :=
  (a + b) % U64

/-- `uint64` subtraction (exact for operands below `2^64`): wraps modulo
`2^64` when the minuend is smaller. -/
def sub64 (a b : Nat) : Nat :=
  (a + U64 - b) % U64

/-- `Range.Size` (block/range.go:49): `uint64` subtraction of the bounds. -/
def Range.Size (r : Range) : Nat :=
  sub64 r.ExclusiveEndBlock r.StartBlock

/-- `minOf` (orchestrator source, bottom of the work-planner file). -/
def minOf (a b : Nat) : Nat :=
  if a < b then a else b

/-- The `for` loop of `Range.Split` (block/range.go:63-78).  Each call emits
the current chunk, then either stops (`currentEnd >= r.ExclusiveEndBlock`) or
advances `currentStart`/`currentEnd` exactly as the Go loop does, the sum
`currentStart + chunkSize` wrapping in `uint64`.  The loop is not structurally
recursive (with `chunkSize = 0` it never advances, and a wrapping sum can make
it cycle below the end forever), so it takes a fuel argument; `none` models
the Go loop failing to terminate. -/
def splitLoop (exclusiveEndBlock chunkSize : Nat) : Nat → Nat → Nat → Option (List Range)
  | 0, _, _ => none
  | fuel + 1, currentStart, currentEnd =>
    if currentEnd ≥ exclusiveEndBlock then
      some [⟨currentStart, currentEnd⟩]
    else
      let nextStart := currentEnd
      let sum := add64 nextStart chunkSize
      let nextEnd := if sum > exclusiveEndBlock then exclusiveEndBlock else sum
      match splitLoop exclusiveEndBlock chunkSize fuel nextStart nextEnd with
      | none => none
      | some rest => some (⟨currentStart, currentEnd⟩ :: rest)

/-- `Range.Split` (block/range.go:53-81).  Returns the single range when its
(`uint64`) size is at most `chunkSize`, otherwise runs the chunking loop
starting at `(r.StartBlock, r.StartBlock + chunkSize)`, both arithmetic
operations wrapping in `uint64`.  The fuel `r.Size` suffices whenever
`chunkSize ≥ 1` and no wraparound occurs; `none` models the Go loop failing
to terminate. -/
def Range.Split (r : Range) (chunkSize : Nat) : Option (List Range) :=
  if sub64 r.ExclusiveEndBlock r.StartBlock ≤ chunkSize then
    some [r]
  else
    splitLoop r.ExclusiveEndBlock chunkSize (sub64 r.ExclusiveEndBlock r.StartBlock)
      r.StartBlock (add64 r.StartBlock chunkSize)

/-- The ranges of a list chain: each starts where the previous one ended,
the first at `start`. -/
def isChainedFrom (start : Nat) : List Range → Bool
  | [] => true
  | r :: rest => decide (r.StartBlock = start) && isChainedFrom r.ExclusiveEndBlock rest

/-- The exclusive end of the last range in the list, or `dflt` for the empty
list. -/
def lastEndOr (dflt : Nat) : List Range → Nat
  | [] => dflt
  | r :: rest => lastEndOr r.ExclusiveEndBlock rest

/-- Modelled from the spec: the `Snapshots` catalog consulted by the work
planner is not among the sources at hand (only the planner that calls it is).
Per the spec it is the "catalog of existing complete and partial store files
for a module", whose complete snapshots form a totally ordered chain by their
exclusive end block.  `completes` records the exclusive end blocks of the
complete snapshot files, `partials` the ranges of the partial files present
on storage. -/
structure Snapshots where
  completes : List Nat
  partials : List Range
  deriving DecidableEq, Repr

/-- Modelled from the spec: "Locate the latest complete snapshot S with
S.end ≤ requestStart (or none)."  Returns the exclusive end block of that
snapshot. -/
def Snapshots.LastCompleteSnapshotBefore (s : Snapshots) (blockNum : Nat) : Option Nat :=
  (s.completes.filter (fun e => decide (e ≤ blockNum))).foldl
    (fun acc e =>
      match acc with
      | none => some e
      | some m => some (Nat.max m e))
    none

/-- Modelled from the spec: a partial store file for exactly the ranges in
the catalog "exists on storage". -/
def Snapshots.ContainsPartial (s : Snapshots) (r : Range) : Bool :=
  decide (r ∈ s.partials)

/-- `WorkUnit` (orchestrator work-planner source): what back-processing must
do for one module. -/
structure WorkUnit where
  modName : String
  initialStoreFile : Option Range
  partialsMissing : List Range
  partialsPresent : List Range
  deriving DecidableEq, Repr

/-- The boundary-walking loop shared by `MapsSplitWork` and `StoresSplitWork`
(work-planner source): from `ptr` while `ptr < reqStart`, produce the range
`[ptr, minOf (ptr - ptr % saveInterval + saveInterval) reqStart)`, append it
to `partialsMissing` or `partialsPresent` according to
`snapshots.ContainsPartial`, and continue from its end.  `none` models the
Go loop not returning: with `saveInterval = 0` the expression
`ptr % saveInterval` panics with a division by zero, and when the alignment
`ptr - ptr%saveInterval + saveInterval` overflows `uint64` the Go loop never
terminates — the wrapped value is below `saveInterval ≤ ptr`, and since the
alignment of `ptr` (the least multiple of `saveInterval` above `ptr`) is
`≥ 2^64`, no multiple of `saveInterval` lies in `[reqStart, 2^64)`, so every
later alignment either stays below `reqStart` or overflows again and `ptr`
never reaches `reqStart`.  Fuel exhaustion (the loop advances by at least
one block per iteration when it returns, so the callers' `reqStart` fuel
suffices for every run that terminates) is likewise `none`. -/
def splitWorkLoop (snapshots : Snapshots) (saveInterval reqStart : Nat) :
    Nat → Nat → List Range → List Range → Option (List Range × List Range)
  | 0, ptr, missing, present =>
    if ptr < reqStart then none else some (missing, present)
  | fuel + 1, ptr, missing, present =>
    if ptr < reqStart then
      if saveInterval = 0 then none
      else if U64 ≤ ptr - ptr % saveInterval + saveInterval then none
      else
        let e := minOf (ptr - ptr % saveInterval + saveInterval) reqStart
        let newPartial : Range := ⟨ptr, e⟩
        if snapshots.ContainsPartial newPartial then
          splitWorkLoop snapshots saveInterval reqStart fuel e missing (present ++ [newPartial])
        else
          splitWorkLoop snapshots saveInterval reqStart fuel e (missing ++ [newPartial]) present
    else some (missing, present)

/-- `MapsSplitWork` (work-planner source): plan the work for a mapper module.
When a complete snapshot exists the initial file is set to
`Range(requestStartBlock, completeSnapshot.ExclusiveEndBlock)` — exactly as
the Go source writes it — and back-processing starts at the snapshot's end;
otherwise the walk starts at `requestStartBlock` itself and is empty.
`none` models the walk loop panicking or never returning. -/
def MapsSplitWork (modName : String) (saveInterval requestStartBlock : Nat)
    (snapshots : Snapshots) : Option WorkUnit :=
  match snapshots.LastCompleteSnapshotBefore requestStartBlock with
  | some completeEnd =>
    if completeEnd = requestStartBlock then
      some ⟨modName, some ⟨requestStartBlock, completeEnd⟩, [], []⟩
    else
      match splitWorkLoop snapshots saveInterval requestStartBlock
          requestStartBlock completeEnd [] [] with
      | none => none
      | some mp => some ⟨modName, some ⟨requestStartBlock, completeEnd⟩, mp.1, mp.2⟩
  | none =>
    match splitWorkLoop snapshots saveInterval requestStartBlock
        requestStartBlock requestStartBlock [] [] with
    | none => none
    | some mp => some ⟨modName, none, mp.1, mp.2⟩

/-- `StoresSplitWork` (work-planner source): plan the work for a store module.
Returns `none` where the Go source panics ("cannot have saved last store
before module's init block") and where the walk loop panics or never
returns. -/
def StoresSplitWork (modName : String) (storeSaveInterval modInitBlock incomingReqStartBlock : Nat)
    (snapshots : Snapshots) : Option WorkUnit :=
  if incomingReqStartBlock ≤ modInitBlock then
    some ⟨modName, none, [], []⟩
  else
    match snapshots.LastCompleteSnapshotBefore incomingReqStartBlock with
    | some completeEnd =>
      if completeEnd ≤ modInitBlock then
        none
      else if completeEnd = incomingReqStartBlock then
        some ⟨modName, some ⟨modInitBlock, completeEnd⟩, [], []⟩
      else
        match splitWorkLoop snapshots storeSaveInterval incomingReqStartBlock
            incomingReqStartBlock completeEnd [] [] with
        | none => none
        | some mp => some ⟨modName, some ⟨modInitBlock, completeEnd⟩, mp.1, mp.2⟩
    | none =>
      match splitWorkLoop snapshots storeSaveInterval incomingReqStartBlock
          incomingReqStartBlock modInitBlock [] [] with
      | none => none
      | some mp => some ⟨modName, none, mp.1, mp.2⟩

/-- The save-interval boundary walk as the spec describes it: "From
backProcessStart to requestStart, walk save-interval boundaries producing
ranges [ptr, min(alignUp(ptr, saveInterval), requestStart))."  This is the
unclassified range sequence against which the planner's output is compared;
it carries the same fuel discipline as `splitWorkLoop`.  (A successful
planner run never overflows an alignment — `splitWorkLoop` returns `none`
otherwise — so the walk's plain arithmetic agrees with the loop's on every
run the theorems below quantify over.) -/
def specWalkRanges (saveInterval reqStart : Nat) : Nat → Nat → List Range
  | 0, _ => []
  | fuel + 1, ptr =>
    if ptr < reqStart then
      let e := minOf (ptr - ptr % saveInterval + saveInterval) reqStart
      ⟨ptr, e⟩ :: specWalkRanges saveInterval reqStart fuel e
    else []

/-- The boundary walk with the planner's fuel. -/
def specWalk (saveInterval reqStart ptr : Nat) : List Range :=
  specWalkRanges saveInterval reqStart reqStart ptr

/-- A store's key/value mapping: string keys to byte-string values (the spec's
`kv`; insertion order irrelevant, modelled as an association list). -/
abbrev KV : Type := List (String × String)

/-- Lookup in a store's `kv`. -/
def kvGet : KV → String → Option String
  | [], _ => none
  | (k, v) :: rest, key => if k = key then some v else kvGet rest key

/-- Write (insert or replace) in a store's `kv`. -/
def kvSet : KV → String → String → KV
  | [], key, val => [(key, val)]
  | (k, v) :: rest, key, val =>
    if k = key then (key, val) :: rest else (k, v) :: kvSet rest key val

/-- A decimal digit's value. -/
def digitVal (c : Char) : Option Nat :=
  if c = '0' then some 0
  else if c = '1' then some 1
  else if c = '2' then some 2
  else if c = '3' then some 3
  else if c = '4' then some 4
  else if c = '5' then some 5
  else if c = '6' then some 6
  else if c = '7' then some 7
  else if c = '8' then some 8
  else if c = '9' then some 9
  else none

/-- Parse a non-empty all-digit character list as a natural number. -/
def parseDecNatGo (acc : Nat) : List Char → Option Nat
  | [] => some acc
  | c :: rest =>
    match digitVal c with
    | none => none
    | some d => parseDecNatGo (acc * 10 + d) rest

/-- Parse canonical base-10 integer text (an optional leading minus sign,
then at least one digit) — the value encoding the spec prescribes for
`int64` and `bigint` stores. -/
def parseDecInt (s : String) : Option Int :=
  match s.data with
  | [] => none
  | '-' :: rest =>
    match rest with
    | [] => none
    | _ => (parseDecNatGo 0 rest).map (fun n => -(n : Int))
  | cs => (parseDecNatGo 0 cs).map (fun n => (n : Int))

/-- Modelled from the spec: the store implementation (`state.Store`) is not
among the sources at hand (only its tests are).  Per the spec,
`max{...}(ord, key, candidate)` reads the current value, replaces it iff the
candidate strictly improves the monotone direction, and writes the candidate
when the key is missing; `int64`/`bigint` values are canonical base-10 text.
A stored value that does not parse is treated like a missing key (the spec
leaves it unspecified). -/
def setMaxIntLike (kv : KV) (key : String) (value : Int) : KV :=
  match (kvGet kv key).bind parseDecInt with
  | none => kvSet kv key (toString value)
  | some prev => if prev < value then kvSet kv key (toString value) else kv

/-- Modelled from the spec: `SetMaxInt64(ord, key, value)`.  The ordinal tags
the delta journal (not modelled here) and does not affect `kv`. -/
def SetMaxInt64 (kv : KV) (ord : Nat) (key : String) (value : Int) : KV :=
  setMaxIntLike kv key value

/-- Modelled from the spec: `SetMaxBigInt(ord, key, value)` — the same
read/compare/replace on arbitrary-precision base-10 text. -/
def SetMaxBigInt (kv : KV) (ord : Nat) (key : String) (value : Int) : KV :=
  setMaxIntLike kv key value

/-- Modelled from the spec: `GetAt(ord, key)` "returns (value, found) from
current kv — stores always read their own writes within a block". -/
def GetAt (kv : KV) (ord : Nat) (key : String) : Option String :=
  kvGet kv key

/-- Parse the fractional digits after the decimal point, continuing the
accumulated digit value and counting the fraction's length. -/
def parseFracTail (acc d : Nat) : List Char → Option (Nat × Nat)
  | [] => some (acc, d)
  | c :: rest =>
    match digitVal c with
    | some v => parseFracTail (acc * 10 + v) (d + 1) rest
    | none => none

/-- Parse the integer digits of a decimal number, then an optional
"." and fractional digits; the result is the full digit value together with
the number of fractional digits. -/
def parseIntPart (acc : Nat) : List Char → Option (Nat × Nat)
  | [] => some (acc, 0)
  | '.' :: rest =>
    match rest with
    | [] => none
    | _ => parseFracTail acc 0 rest
  | c :: rest =>
    match digitVal c with
    | some v => parseIntPart (acc * 10 + v) rest
    | none => none

/-- Modelled from the spec: parse decimal float text (an optional minus sign,
digits, an optional fractional part) as the exact value `m · 10^(-d)` —
the decimal text encoding the spec prescribes for `float64` and `bigfloat`
stores.  Non-decimal float spellings (NaN, infinities, binary exponents) are
outside the spec's canonical decimal encoding and parse to `none`. -/
def parseDecFloat (s : String) : Option (Int × Nat) :=
  match s.data with
  | [] => none
  | '-' :: rest =>
    match rest with
    | [] => none
    | _ => (parseIntPart 0 rest).map (fun p => (-(p.1 : Int), p.2))
  | cs => (parseIntPart 0 cs).map (fun p => ((p.1 : Int), p.2))

/-- Modelled from the spec: format the exact decimal value `m · 10^(-d)` as
decimal text.  (The concrete float formatters pick a shortest round-trip
rendering; any exact decimal rendering serves the max-policy semantics.) -/
def formatDecFloat (m : Int) (d : Nat) : String :=
  if d = 0 then toString m
  else
    let ds := (toString m.natAbs).data
    let padded := List.replicate (d + 1 - ds.length) '0' ++ ds
    (if m < 0 then "-" else "") ++
      String.mk (padded.take (padded.length - d) ++ '.' :: padded.drop (padded.length - d))

/-- Modelled from the spec: the shared read/compare/replace of the float
max policies — replace iff the candidate `m · 10^(-d)` is numerically
greater than the stored decimal value `prev.1 · 10^(-prev.2)` (the two are
compared exactly, after clearing denominators); a missing (or undecodable)
stored value is overwritten by the candidate. -/
def setMaxFloatLike (kv : KV) (key : String) (m : Int) (d : Nat) : KV :=
  match (kvGet kv key).bind parseDecFloat with
  | none => kvSet kv key (formatDecFloat m d)
  | some prev =>
    if prev.1 * (10 : Int) ^ d < m * (10 : Int) ^ prev.2 then
      kvSet kv key (formatDecFloat m d)
    else kv

/-- Modelled from the spec: `SetMaxFloat64(ord, key, value)` with the
candidate given by its exact decimal value `m · 10^(-d)`. -/
def SetMaxFloat64 (kv : KV) (ord : Nat) (key : String) (m : Int) (d : Nat) : KV :=
  setMaxFloatLike kv key m d

/-- Modelled from the spec: `SetMaxBigFloat(ord, key, value)` — the same
read/compare/replace on decimal float text. -/
def SetMaxBigFloat (kv : KV) (ord : Nat) (key : String) (m : Int) (d : Nat) : KV :=
  setMaxFloatLike kv key m d

/-- The outcome of calling the guest entry point (`i.entrypoint.Call` in
wasm/instance.go): a normal return, a `sys.ExitError` with an exit code, or
any other error (a trap). -/
inductive EntrypointResult where
  | completed
  | exited (exitCode : Nat)
  | trapped (message : String)
  deriving DecidableEq, Repr

/-- The error `Instance.Execute` returns: the recorded panic error, or the
wrapped "executing entrypoint %q" error. -/
inductive ExecuteError where
  | panicked (panicError : String)
  | entrypointFailed (functionName : String) (message : String)
  deriving DecidableEq, Repr

/-- The per-instance state `Instance.Execute` consults (wasm/instance.go):
the entry point's name and the panic slot `panicError` (set by the
`register_panic` host function). -/
structure WasmInstance where
  functionName : String
  panicError : Option String
  deriving DecidableEq, Repr

/-- `Instance.Execute` (wasm/instance.go:43-58), with the guest call's outcome
as an explicit input: on a call error, an exit code of 0 is success; otherwise
the recorded panic error is returned when the panic slot is set, else a
wrapped error.  A normal return is success regardless of the panic slot. -/
def WasmInstance.Execute (i : WasmInstance) (callResult : EntrypointResult) :
    Option ExecuteError :=
  match callResult with
  | .completed => none
  | .exited exitCode =>
    if exitCode = 0 then none
    else
      match i.panicError with
      | some p => some (.panicked p)
      | none => some (.entrypointFailed i.functionName "exit status")
  | .trapped message =>
    match i.panicError with
    | some p => some (.panicked p)
    | none => some (.entrypointFailed i.functionName message)

/-- A module input binding (`wasm.Input` in the executor's loop,
pipeline/executor.go:200-217): a source feed or another module's output
(`InputSource`, read from the per-block values map by name), a store bound in
get mode (`InputStore`), or the module's own output store (`OutputStore`). -/
inductive WasmInput where
  | InputSource (name : String)
  | InputStore
  | OutputStore
  deriving DecidableEq, Repr

/-- The per-block `values` mapping (`vals map[string][]byte`): a present key
may hold a nil payload, so values are `Option String`. -/
abbrev Vals : Type := List (String × Option String)

/-- Go map read `vals[name]`: `none` when the key is absent. -/
def valsGet : Vals → String → Option (Option String)
  | [], _ => none
  | (k, v) :: rest, key => if k = key then some v else valsGet rest key

/-- Go map write `vals[name] = v`. -/
def valsSet : Vals → String → Option String → Vals
  | [], key, v => [(key, v)]
  | (k, v') :: rest, key, v =>
    if k = key then (key, v) :: rest else (k, v') :: valsSet rest key v

/-- `len(vals[name])` as the Go executor computes it: a missing key and a nil
payload both have length 0. -/
def valLen (v : Option (Option String)) : Nat :=
  match v with
  | some (some s) => s.length
  | _ => 0

/-- The input scan of `BaseExecutor.wasmCall` (pipeline/executor.go:199-217):
`hasInput` becomes true for a source input whose bytes in `vals` are
non-empty and for any store bound in get mode; the module's own output store
contributes nothing.  (The Go loop also stashes `StreamData` on the input,
which has no further observable effect here.) -/
def hasInput (vals : Vals) (inputs : List WasmInput) : Bool :=
  inputs.any fun input =>
    match input with
    | .InputSource name => valLen (valsGet vals name) != 0
    | .InputStore => true
    | .OutputStore => false

/-- What the guest would do if a WASM instance were created and executed: its
`Output()` bytes on success, or an execution error.  The guest is external to
the sources, so it is a parameter of the executor model. -/
structure WasmExecBehavior where
  output : Option String
  execError : Option String
  deriving DecidableEq, Repr

/-- A created instance, reduced to what the executor reads back from it. -/
structure WasmVmResult where
  output : Option String
  deriving DecidableEq, Repr

/-- `BaseExecutor.wasmCall` (pipeline/executor.go:198-242): when `hasInput`
is false the VM is skipped and no instance is returned (`ok none`); otherwise
an instance is created and executed, yielding its output or an execution
error. -/
def wasmCall (behavior : WasmExecBehavior) (vals : Vals) (inputs : List WasmInput) :
    Except String (Option WasmVmResult) :=
  if hasInput vals inputs then
    match behavior.execError with
    | some e => Except.error e
    | none => Except.ok (some ⟨behavior.output⟩)
  else Except.ok none

/-- `MapperModuleExecutor.wasmMapCall` (pipeline/executor.go:170-188):
returns the updated values map, the recorded `mapperOutput`, and the number
of WASM executions performed (1 when an instance ran, 0 when execution was
skipped) — the count makes the engine's "no-op blocks cost nothing"
optimization observable. -/
def wasmMapCall (behavior : WasmExecBehavior) (vals : Vals) (inputs : List WasmInput)
    (moduleName : String) : Except String (Vals × Option String × Nat) :=
  match wasmCall behavior vals inputs with
  | .error e => .error e
  | .ok (some vm) => .ok (valsSet vals moduleName vm.output, vm.output, 1)
  | .ok none => .ok (valsSet vals moduleName none, none, 0)

/-- The clock identifying the current block (`pbsubstreams.Clock`; only
`Number` is consulted by the executor paths modelled here). -/
structure Clock where
  number : Nat
  id : String
  deriving DecidableEq, Repr

/-- Modelled from the spec: one module's output cache, "a mapping from block
number → {cursor, payload}"; the cache implementation is not among the
sources at hand.  A present entry may hold a nil payload. -/
abbrev OutputCache : Type := List (Nat × Option String)

/-- Modelled from the spec: `get(clock)` — "(bytes, hit) for a specific
block".  `some payload` is a hit. -/
def cacheGet : OutputCache → Nat → Option (Option String)
  | [], _ => none
  | (b, payload) :: rest, blockNum =>
    if b = blockNum then some payload else cacheGet rest blockNum

/-- Modelled from the spec: `set(clock, cursor, bytes)` — "records an entry".
The cursor is kept by the real cache for resumption and has no observable
effect on `get`. -/
def cacheSet (c : OutputCache) (blockNum : Nat) (cursor : String)
    (payload : Option String) : OutputCache :=
  match c with
  | [] => [(blockNum, payload)]
  | (b, p) :: rest =>
    if b = blockNum then (blockNum, payload) :: rest
    else (b, p) :: cacheSet rest blockNum cursor payload

/-- What one `MapperModuleExecutor.run` leaves behind: the stashed
`mapperOutput`, the cache and values map afterwards, and how many WASM
executions it performed. -/
structure MapperRunResult where
  mapperOutput : Option String
  cache : OutputCache
  vals : Vals
  wasmInvocations : Nat
  deriving DecidableEq, Repr

/-- `MapperModuleExecutor.run` (pipeline/executor.go:101-124): probe the
output cache at the block's number; on a hit stash the cached bytes and
return with nothing executed and nothing written back; on a miss run
`wasmMapCall` and record the mapper output in the cache. -/
def MapperModuleExecutorRun (behavior : WasmExecBehavior) (cache : OutputCache)
    (vals : Vals) (inputs : List WasmInput) (moduleName : String) (clock : Clock)
    (cursor : String) : Except String MapperRunResult :=
  match cacheGet cache clock.number with
  | some output => .ok ⟨output, cache, vals, 0⟩
  | none =>
    match wasmMapCall behavior vals inputs moduleName with
    | .error e => .error e
    | .ok (vals2, mapperOutput, n) =>
      .ok ⟨mapperOutput, cacheSet cache clock.number cursor mapperOutput, vals2, n⟩

/-- Running the mapper executor over a block range, threading the cache and
values map and accumulating the WASM execution count. -/
def mapperRunBlocks (behavior : WasmExecBehavior) (inputs : List WasmInput)
    (moduleName cursor : String) :
    OutputCache → Vals → List Clock → Except String (OutputCache × Vals × Nat)
  | cache, vals, [] => .ok (cache, vals, 0)
  | cache, vals, clock :: rest =>
    match MapperModuleExecutorRun behavior cache vals inputs moduleName clock cursor with
    | .error e => .error e
    | .ok res =>
      match mapperRunBlocks behavior inputs moduleName cursor res.cache res.vals rest with
      | .error e => .error e
      | .ok (c2, v2, n2) => .ok (c2, v2, res.wasmInvocations + n2)

/-- Modelled from the spec: `Ranges.Merged` — "merge (coalesce
adjacent/overlapping)" ranges of a sorted collection; the ranges collection
helpers are not among the sources at hand (only their caller is).  `cur` is
the coalescing candidate. -/
def mergedInto (cur : Range) : List Range → List Range
  | [] => [cur]
  | r :: rest =>
    if r.StartBlock ≤ cur.ExclusiveEndBlock then
      mergedInto ⟨cur.StartBlock, Nat.max cur.ExclusiveEndBlock r.ExclusiveEndBlock⟩ rest
    else
      cur :: mergedInto r rest

/-- Modelled from the spec: `Ranges.Merged` on a whole collection. -/
def RangesMerged : List Range → List Range
  | [] => []
  | r :: rest => mergedInto r rest

/-- `WorkUnit.initialProcessedPartials` (work-planner source): the merged
`partialsPresent`. -/
def WorkUnit.initialProcessedPartials (w : WorkUnit) : List Range :=
  RangesMerged w.partialsPresent

/-- A `pbsubstreams.ModuleProgress` carrying processed ranges. -/
structure ModuleProgress where
  name : String
  processedRanges : List Range
  deriving DecidableEq, Repr

/-- `WorkPlan.ProgressMessages` (work-planner source:26-58).  The work plan
is a map from module name to work unit, modelled as an association list.  A
unit whose `initialStoreFile` is nil is skipped (`continue`); otherwise one
message is emitted whose ranges are the initial store file's range followed
by the unit's `initialProcessedPartials`. -/
def ProgressMessages : List (String × WorkUnit) → List ModuleProgress
  | [] => []
  | (storeName, unit) :: rest =>
    match unit.initialStoreFile with
    | none => ProgressMessages rest
    | some initial =>
      ⟨storeName, [initial] ++ unit.initialProcessedPartials⟩ :: ProgressMessages rest

/-! ## Lemmas about `Range.Split` -/

/-- With chunk size 0 the Go loop of `Range.Split` never advances: once
`currentEnd` is below the exclusive end, no amount of fuel makes it
terminate. -/
theorem splitLoop_zero_chunk_diverges (exclusiveEndBlock : Nat)
    (hU : exclusiveEndBlock ≤ U64) :
    ∀ fuel currentStart currentEnd, currentEnd < exclusiveEndBlock →
      splitLoop exclusiveEndBlock 0 fuel currentStart currentEnd = none := by
  have hU' : exclusiveEndBlock ≤ 18446744073709551616 := hU
  intro fuel
  induction fuel with
  | zero => intro cs ce h; rfl
  | succ fuel ih =>
    intro cs ce h
    have hnext : (if add64 ce 0 > exclusiveEndBlock then exclusiveEndBlock
        else add64 ce 0) = ce := by
      have h0 : add64 ce 0 = ce := by
        simp only [add64, U64]
        omega
      rw [h0, if_neg (by omega)]
    simp only [splitLoop]
    rw [if_neg (by omega : ¬ ce ≥ exclusiveEndBlock), hnext, ih ce ce h]

/-- The main soundness lemma for the chunking loop: with chunk size at least 1,
enough fuel, and the loop invariant `currentEnd = min (currentStart + chunkSize)
exclusiveEndBlock`, the loop terminates with a nonempty chained list of ranges
ending exactly at the exclusive end, every range of positive size at most the
chunk size, and every range but the last of size exactly the chunk size. -/
theorem splitLoop_sound (exclusiveEndBlock chunkSize : Nat) (hchunk : 1 ≤ chunkSize)
    (hwrap : exclusiveEndBlock + chunkSize ≤ U64) :
    ∀ fuel currentStart currentEnd,
      currentStart < exclusiveEndBlock →
      currentEnd = min (currentStart + chunkSize) exclusiveEndBlock →
      exclusiveEndBlock - currentEnd < fuel →
      ∃ l, splitLoop exclusiveEndBlock chunkSize fuel currentStart currentEnd = some l ∧
        l ≠ [] ∧
        isChainedFrom currentStart l = true ∧
        lastEndOr currentStart l = exclusiveEndBlock ∧
        (∀ r ∈ l, r.StartBlock < r.ExclusiveEndBlock ∧ r.Size ≤ chunkSize) ∧
        (∀ r ∈ l.dropLast, r.Size = chunkSize) := by
  have hU : exclusiveEndBlock + chunkSize ≤ 18446744073709551616 := hwrap
  intro fuel
  induction fuel with
  | zero => intro cs ce h1 h2 h3; omega
  | succ fuel ih =>
    intro cs ce h1 h2 h3
    by_cases hce : ce ≥ exclusiveEndBlock
    · have hceq : ce = exclusiveEndBlock := by omega
      refine ⟨[⟨cs, ce⟩], ?_, by simp, ?_, ?_, ?_, ?_⟩
      · unfold splitLoop; rw [if_pos hce]
      · simp [isChainedFrom]
      · simp [lastEndOr, hceq]
      · intro r hr
        simp only [List.mem_singleton] at hr
        subst hr
        constructor
        · simp only []; omega
        · simp only [Range.Size, sub64, U64]; omega
      · intro r hr
        simp [List.dropLast] at hr
    · have hlt : ce < exclusiveEndBlock := by omega
      have hceq : ce = cs + chunkSize := by omega
      have hsum : add64 ce chunkSize = ce + chunkSize := by
        simp only [add64, U64]
        omega
      have hnexteq : (if add64 ce chunkSize > exclusiveEndBlock then exclusiveEndBlock
          else add64 ce chunkSize) = min (ce + chunkSize) exclusiveEndBlock := by
        rw [hsum]
        split <;> omega
      obtain ⟨rest, hrest, hne, hchain, hlast, hall, hdrop⟩ :=
        ih ce (if add64 ce chunkSize > exclusiveEndBlock then exclusiveEndBlock
          else add64 ce chunkSize) hlt hnexteq (by rw [hsum]; split <;> omega)
      refine ⟨⟨cs, ce⟩ :: rest, ?_, by simp, ?_, ?_, ?_, ?_⟩
      · simp only [splitLoop]
        rw [if_neg hce, hrest]
      · simp [isChainedFrom, hchain]
      · simp only [lastEndOr]
        exact hlast
      · intro r hr
        rcases List.mem_cons.mp hr with h | h
        · subst h
          refine ⟨by simp only []; omega, ?_⟩
          simp only [Range.Size, sub64, U64]; omega
        · exact hall r h
      · obtain ⟨b, L, hbL⟩ := List.exists_cons_of_ne_nil hne
        subst hbL
        intro r hr
        rw [List.dropLast_cons₂] at hr
        rcases List.mem_cons.mp hr with h | h
        · subst h
          simp only [Range.Size, sub64, U64]; omega
        · exact hdrop r h

/-- Every member of a chained list of well-formed ranges starts at or after
the chain's start. -/
theorem chained_mem_start_ge (l : List Range) :
    ∀ start, isChainedFrom start l = true →
      (∀ r ∈ l, r.StartBlock ≤ r.ExclusiveEndBlock) →
      ∀ r ∈ l, start ≤ r.StartBlock := by
  induction l with
  | nil => intro start _ _ r hr; simp at hr
  | cons a rest ih =>
    intro start hchain hmono r hr
    simp only [isChainedFrom, Bool.and_eq_true, decide_eq_true_eq] at hchain
    rcases List.mem_cons.mp hr with h | h
    · subst h; omega
    · have ha := hmono a (List.mem_cons_self a rest)
      have := ih a.ExclusiveEndBlock hchain.2
        (fun r hr => hmono r (List.mem_cons_of_mem a hr)) r h
      omega

/-- The final end of a chained list of well-formed ranges is at least the
chain's start. -/
theorem lastEndOr_ge (l : List Range) :
    ∀ start, isChainedFrom start l = true →
      (∀ r ∈ l, r.StartBlock ≤ r.ExclusiveEndBlock) →
      start ≤ lastEndOr start l := by
  induction l with
  | nil => intro start _ _; simp [lastEndOr]
  | cons a rest ih =>
    intro start hchain hmono
    simp only [isChainedFrom, Bool.and_eq_true, decide_eq_true_eq] at hchain
    simp only [lastEndOr]
    have ha := hmono a (List.mem_cons_self a rest)
    have := ih a.ExclusiveEndBlock hchain.2
      (fun r hr => hmono r (List.mem_cons_of_mem a hr))
    omega

/-- A chained list of well-formed ranges covers exactly the half-open
interval from its start to its final end. -/
theorem chained_union (l : List Range) :
    ∀ start, isChainedFrom start l = true →
      (∀ r ∈ l, r.StartBlock ≤ r.ExclusiveEndBlock) →
      ∀ n, (∃ rr ∈ l, rr.Contains n = true) ↔ (start ≤ n ∧ n < lastEndOr start l) := by
  induction l with
  | nil =>
    intro start _ _ n
    simp [lastEndOr]
  | cons a rest ih =>
    intro start hchain hmono n
    simp only [isChainedFrom, Bool.and_eq_true, decide_eq_true_eq] at hchain
    have hmono' : ∀ r ∈ rest, r.StartBlock ≤ r.ExclusiveEndBlock :=
      fun r hr => hmono r (List.mem_cons_of_mem a hr)
    have ha := hmono a (List.mem_cons_self a rest)
    have hge := lastEndOr_ge rest a.ExclusiveEndBlock hchain.2 hmono'
    have hrest := ih a.ExclusiveEndBlock hchain.2 hmono' n
    simp only [lastEndOr]
    constructor
    · rintro ⟨rr, hrr, hc⟩
      rcases List.mem_cons.mp hrr with h | h
      · subst h
        simp only [Range.Contains, Bool.and_eq_true, decide_eq_true_eq, ge_iff_le] at hc
        omega
      · have := hrest.mp ⟨rr, h, hc⟩
        omega
    · intro hn
      by_cases hlo : n < a.ExclusiveEndBlock
      · refine ⟨a, List.mem_cons_self a rest, ?_⟩
        simp only [Range.Contains, Bool.and_eq_true, decide_eq_true_eq, ge_iff_le]
        omega
      · obtain ⟨rr, hrr, hc⟩ := hrest.mpr (by omega)
        exact ⟨rr, List.mem_cons_of_mem a hrr, hc⟩

/-- The members of a chained list of well-formed ranges are pairwise
disjoint. -/
theorem chained_disjoint (l : List Range) :
    ∀ start, isChainedFrom start l = true →
      (∀ r ∈ l, r.StartBlock ≤ r.ExclusiveEndBlock) →
      List.Pairwise (fun a b => ∀ n, ¬(a.Contains n = true ∧ b.Contains n = true)) l := by
  induction l with
  | nil => intro start _ _; exact List.Pairwise.nil
  | cons a rest ih =>
    intro start hchain hmono
    simp only [isChainedFrom, Bool.and_eq_true, decide_eq_true_eq] at hchain
    have hmono' : ∀ r ∈ rest, r.StartBlock ≤ r.ExclusiveEndBlock :=
      fun r hr => hmono r (List.mem_cons_of_mem a hr)
    refine List.Pairwise.cons ?_ (ih a.ExclusiveEndBlock hchain.2 hmono')
    intro b hb n hcontra
    have hbs := chained_mem_start_ge rest a.ExclusiveEndBlock hchain.2 hmono' b hb
    obtain ⟨hca, hcb⟩ := hcontra
    simp only [Range.Contains, Bool.and_eq_true, decide_eq_true_eq, ge_iff_le] at hca hcb
    omega

/-- With chunk size 2 and exclusive end `2^64 - 1`, the Go loop of
`Range.Split` cycles forever: every reached `currentEnd` is even and below
the odd end, so the clamp never fires and the break condition never holds —
the step from `2^64 - 2` wraps to 0 and the climb restarts — whatever the
fuel. -/
theorem splitLoop_wrap_diverges :
    ∀ fuel currentStart currentEnd, currentEnd % 2 = 0 → currentEnd < U64 - 1 →
      splitLoop (U64 - 1) 2 fuel currentStart currentEnd = none := by
  intro fuel
  induction fuel with
  | zero => intro cs ce _ _; rfl
  | succ fuel ih =>
    intro cs ce heven hlt
    have hlt' : ce < 18446744073709551616 - 1 := hlt
    have hsum : add64 ce 2 = if ce + 2 = 18446744073709551616 then 0 else ce + 2 := by
      simp only [add64, U64]
      split <;> omega
    have hval : (if add64 ce 2 > U64 - 1 then U64 - 1 else add64 ce 2) =
        (if ce + 2 = 18446744073709551616 then 0 else ce + 2) := by
      rw [hsum]
      refine if_neg ?_
      simp only [U64]
      split <;> omega
    have h1 : (if ce + 2 = 18446744073709551616 then 0 else ce + 2) % 2 = 0 := by
      split <;> omega
    have h2 : (if ce + 2 = 18446744073709551616 then 0 else ce + 2) < U64 - 1 := by
      simp only [U64]
      split <;> omega
    simp only [splitLoop]
    rw [if_neg (Nat.not_le.mpr hlt), hval, ih ce _ h1 h2]

/-- The concrete wrap input: the Go `Split` of `[0, 2^64 - 1)` with chunk
size 2 never returns (`splitLoop_wrap_diverges`), whatever the fuel. -/
theorem split_wrap_input_diverges : Range.Split ⟨0, U64 - 1⟩ 2 = none := by
  have hsub : sub64 (U64 - 1) 0 = U64 - 1 := by
    simp only [sub64, U64]
  have hadd : add64 0 2 = 2 := by
    simp only [add64, U64]
  unfold Range.Split
  simp only []
  rw [hsub, hadd, if_neg (by simp only [U64]; omega : ¬ U64 - 1 ≤ 2)]
  exact splitLoop_wrap_diverges (U64 - 1) 0 2 (by omega) (by simp only [U64]; omega)

/-- C9 counterexample: the claim asserts termination for every range and
every chunk size at least 1, but `uint64` wraparound refutes it — for
`r = [0, 2^64 - 1)` and `k = 2` the Go loop's `currentStart + chunkSize`
wraps and the loop cycles below the end forever, so `Split` never returns. -/
theorem c9_counterexample :
    (1 : Nat) ≤ 2 ∧ Range.Split ⟨0, U64 - 1⟩ 2 = none :=
  ⟨by omega, split_wrap_input_diverges⟩

/-- C9 (amended as the counterexample forces): for every `uint64` range `r`
and chunk size `k` with `1 ≤ k` whose chunking cannot wrap
(`r.ExclusiveEndBlock + k ≤ 2^64`), `r.Split k` terminates (returns `some`);
when `r.Size ≤ k` the result is `[r]` itself, and in general every returned
sub-range but the last has size exactly `k` while every returned sub-range
(the last included) has size at most `k`.  The `k ≥ 1` precondition remains
essential: by `splitLoop_zero_chunk_diverges`, with chunk size 0 the loop
never advances. -/
theorem c9_split_terminates_and_chunk_sizes (r : Range) (chunkSize : Nat)
    (hchunk : 1 ≤ chunkSize) (hk : chunkSize < U64) (hs : r.StartBlock < U64)
    (hwrap : r.ExclusiveEndBlock + chunkSize ≤ U64) :
    (∃ l, r.Split chunkSize = some l) ∧
    (r.Size ≤ chunkSize → r.Split chunkSize = some [r]) ∧
    (∀ l, r.Split chunkSize = some l →
      (∀ rr ∈ l.dropLast, rr.Size = chunkSize) ∧ (∀ rr ∈ l, rr.Size ≤ chunkSize)) := by
  have hU : r.ExclusiveEndBlock + chunkSize ≤ 18446744073709551616 := hwrap
  have hk' : chunkSize < 18446744073709551616 := hk
  have hs' : r.StartBlock < 18446744073709551616 := hs
  by_cases hsz : sub64 r.ExclusiveEndBlock r.StartBlock ≤ chunkSize
  · have hsplit : r.Split chunkSize = some [r] := by
      unfold Range.Split; rw [if_pos hsz]
    refine ⟨⟨[r], hsplit⟩, fun _ => hsplit, ?_⟩
    intro l hl
    rw [hsplit] at hl
    cases hl
    constructor
    · intro rr hrr; simp [List.dropLast] at hrr
    · intro rr hrr
      simp only [List.mem_singleton] at hrr
      subst hrr
      exact hsz
  · by_cases hse : r.StartBlock ≤ r.ExclusiveEndBlock
    · -- the monotone regime: the chunking loop's invariant holds from the start
      have hsub : sub64 r.ExclusiveEndBlock r.StartBlock =
          r.ExclusiveEndBlock - r.StartBlock := by
        simp only [sub64, U64]
        omega
      have hsz' : ¬ r.ExclusiveEndBlock - r.StartBlock ≤ chunkSize := by
        rw [← hsub]; exact hsz
      have hadd : add64 r.StartBlock chunkSize = r.StartBlock + chunkSize := by
        simp only [add64, U64]
        omega
      obtain ⟨l, hloop, hne, hchain, hlast, hall, hdrop⟩ :=
        splitLoop_sound r.ExclusiveEndBlock chunkSize hchunk hwrap
          (sub64 r.ExclusiveEndBlock r.StartBlock) r.StartBlock
          (add64 r.StartBlock chunkSize) (by omega)
          (by rw [hadd]; omega) (by rw [hadd, hsub]; omega)
      have hsplit : r.Split chunkSize = some l := by
        unfold Range.Split; rw [if_neg hsz]; exact hloop
      refine ⟨⟨l, hsplit⟩, fun h => absurd h (by simp only [Range.Size]; exact hsz), ?_⟩
      intro l' hl'
      rw [hsplit] at hl'
      cases hl'
      exact ⟨hdrop, fun rr hrr => (hall rr hrr).2⟩
    · -- start beyond end: the wrapped uint64 size is huge, the loop is entered,
      -- and its first iteration either breaks at once or re-enters the
      -- monotone regime below the end
      have hgt : r.ExclusiveEndBlock < r.StartBlock := by omega
      have hsub : sub64 r.ExclusiveEndBlock r.StartBlock =
          r.ExclusiveEndBlock + 18446744073709551616 - r.StartBlock := by
        simp only [sub64, U64]
        omega
      obtain ⟨f, hf⟩ : ∃ f, sub64 r.ExclusiveEndBlock r.StartBlock = f + 1 := by
        refine ⟨sub64 r.ExclusiveEndBlock r.StartBlock - 1, ?_⟩
        rw [hsub]
        omega
      have hf' : r.ExclusiveEndBlock + 18446744073709551616 - r.StartBlock = f + 1 := by
        rw [← hsub]; exact hf
      have hce0 : add64 r.StartBlock chunkSize =
          (r.StartBlock + chunkSize) % 18446744073709551616 := rfl
      have hszgoal : ¬ r.Size ≤ chunkSize := by
        simp only [Range.Size]; exact hsz
      by_cases hge : add64 r.StartBlock chunkSize ≥ r.ExclusiveEndBlock
      · -- the first emitted chunk already reaches the end: a single range
        have hsplit : r.Split chunkSize =
            some [⟨r.StartBlock, add64 r.StartBlock chunkSize⟩] := by
          unfold Range.Split
          rw [if_neg hsz, hf]
          simp only [splitLoop]
          rw [if_pos hge]
        refine ⟨⟨_, hsplit⟩, fun h => absurd h hszgoal, ?_⟩
        intro l hl
        rw [hsplit] at hl
        cases hl
        refine ⟨?_, ?_⟩
        · intro rr hrr; simp [List.dropLast] at hrr
        · intro rr hrr
          simp only [List.mem_singleton] at hrr
          subst hrr
          simp only [Range.Size, sub64, add64, U64]
          omega
      · -- the wrapped first chunk lands below the end; from there the loop
        -- climbs monotonically and terminates
        have hge' : (r.StartBlock + chunkSize) % 18446744073709551616 <
            r.ExclusiveEndBlock := by
          rw [← hce0]; omega
        have hsum2 : add64 (add64 r.StartBlock chunkSize) chunkSize =
            add64 r.StartBlock chunkSize + chunkSize := by
          rw [hce0]
          simp only [add64, U64]
          omega
        obtain ⟨rest, hrest, hne, hchain, hlast, hall, hdrop⟩ :=
          splitLoop_sound r.ExclusiveEndBlock chunkSize hchunk hwrap f
            (add64 r.StartBlock chunkSize)
            (if add64 (add64 r.StartBlock chunkSize) chunkSize > r.ExclusiveEndBlock
              then r.ExclusiveEndBlock
              else add64 (add64 r.StartBlock chunkSize) chunkSize)
            (by omega)
            (by rw [hsum2, hce0]; split <;> omega)
            (by rw [hsum2, hce0]; split <;> omega)
        have hsplit : r.Split chunkSize =
            some (⟨r.StartBlock, add64 r.StartBlock chunkSize⟩ :: rest) := by
          unfold Range.Split
          rw [if_neg hsz, hf]
          simp only [splitLoop]
          rw [if_neg hge, hrest]
        refine ⟨⟨_, hsplit⟩, fun h => absurd h hszgoal, ?_⟩
        intro l hl
        rw [hsplit] at hl
        cases hl
        constructor
        · obtain ⟨b, L, hbL⟩ := List.exists_cons_of_ne_nil hne
          subst hbL
          intro rr hrr
          rw [List.dropLast_cons₂] at hrr
          rcases List.mem_cons.mp hrr with hh | hh
          · subst hh
            simp only [Range.Size, sub64, add64, U64]
            omega
          · exact hdrop rr hh
        · intro rr hrr
          rcases List.mem_cons.mp hrr with hh | hh
          · subst hh
            simp only [Range.Size, sub64, add64, U64]
            omega
          · exact (hall rr hh).2

/-- C9 witness: the amended theorem applied at the concrete range `[0, 5)`
with chunk size 2. -/
theorem c9_split_terminates_and_chunk_sizes_witness :
    (∃ l, Range.Split ⟨0, 5⟩ 2 = some l) ∧
    ((Range.mk 0 5).Size ≤ 2 → Range.Split ⟨0, 5⟩ 2 = some [⟨0, 5⟩]) ∧
    (∀ l, Range.Split ⟨0, 5⟩ 2 = some l →
      (∀ rr ∈ l.dropLast, rr.Size = 2) ∧ (∀ rr ∈ l, rr.Size ≤ 2)) :=
  c9_split_terminates_and_chunk_sizes ⟨0, 5⟩ 2 (by decide) (by decide) (by decide)
    (by decide)

/-- C4 counterexample: the claim quantifies over *every* chunk size, but at
chunk size 0 the well-formed range `[0, 2)` is never split into a covering
list — the Go loop does not advance — and even for chunk sizes at least 1
the `uint64` wrap refutes it: splitting `[0, 2^64 - 1)` with chunk size 2
cycles forever (`splitLoop_wrap_diverges`), so in neither case is a list
whose union equals the range produced. -/
theorem c4_counterexample :
    ((Range.mk 0 2).StartBlock ≤ (Range.mk 0 2).ExclusiveEndBlock ∧
      Range.Split ⟨0, 2⟩ 0 = none) ∧
    ((Range.mk 0 (U64 - 1)).StartBlock ≤ (Range.mk 0 (U64 - 1)).ExclusiveEndBlock ∧
      (1 : Nat) ≤ 2 ∧ Range.Split ⟨0, U64 - 1⟩ 2 = none) :=
  ⟨⟨Nat.zero_le _, by decide⟩, ⟨Nat.zero_le _, by omega, split_wrap_input_diverges⟩⟩

/-- C4 (amended as the counterexample forces — chunk size at least 1 and no
`uint64` wraparound, `r.ExclusiveEndBlock + chunkSize ≤ 2^64`): for every
range with `StartBlock ≤ ExclusiveEndBlock`, `Split` returns a list of
sub-ranges that chain — the first starts at `r.StartBlock`, each subsequent
one starts where the previous ended, the last ends at
`r.ExclusiveEndBlock` — whose union is exactly `r` and whose pairwise
intersections are empty. -/
theorem c4_split_covering_partition (r : Range) (chunkSize : Nat)
    (hr : r.StartBlock ≤ r.ExclusiveEndBlock) (hchunk : 1 ≤ chunkSize)
    (hwrap : r.ExclusiveEndBlock + chunkSize ≤ U64) :
    ∃ l, r.Split chunkSize = some l ∧
      l ≠ [] ∧
      isChainedFrom r.StartBlock l = true ∧
      lastEndOr r.StartBlock l = r.ExclusiveEndBlock ∧
      (∀ n, r.Contains n = true ↔ ∃ rr ∈ l, rr.Contains n = true) ∧
      List.Pairwise (fun a b => ∀ n, ¬(a.Contains n = true ∧ b.Contains n = true)) l := by
  have hU : r.ExclusiveEndBlock + chunkSize ≤ 18446744073709551616 := hwrap
  have hsub : sub64 r.ExclusiveEndBlock r.StartBlock =
      r.ExclusiveEndBlock - r.StartBlock := by
    simp only [sub64, U64]
    omega
  by_cases hsz : sub64 r.ExclusiveEndBlock r.StartBlock ≤ chunkSize
  · refine ⟨[r], by unfold Range.Split; rw [if_pos hsz], by simp, ?_, ?_, ?_, ?_⟩
    · simp [isChainedFrom]
    · simp [lastEndOr]
    · intro n
      simp only [List.mem_singleton]
      constructor
      · intro h; exact ⟨r, rfl, h⟩
      · rintro ⟨rr, rfl, h⟩; exact h
    · simp
  · have hsz' : ¬ r.ExclusiveEndBlock - r.StartBlock ≤ chunkSize := by
      rw [← hsub]; exact hsz
    have hadd : add64 r.StartBlock chunkSize = r.StartBlock + chunkSize := by
      simp only [add64, U64]
      omega
    obtain ⟨l, hloop, hne, hchain, hlast, hall, hdrop⟩ :=
      splitLoop_sound r.ExclusiveEndBlock chunkSize hchunk hwrap
        (sub64 r.ExclusiveEndBlock r.StartBlock) r.StartBlock
        (add64 r.StartBlock chunkSize) (by omega)
        (by rw [hadd]; omega) (by rw [hadd, hsub]; omega)
    have hmono : ∀ rr ∈ l, rr.StartBlock ≤ rr.ExclusiveEndBlock :=
      fun rr hrr => by have := (hall rr hrr).1; omega
    refine ⟨l, by unfold Range.Split; rw [if_neg hsz]; exact hloop, hne, hchain, hlast, ?_, ?_⟩
    · intro n
      rw [chained_union l r.StartBlock hchain hmono n, hlast]
      simp only [Range.Contains, Bool.and_eq_true, decide_eq_true_eq, ge_iff_le]
    · exact chained_disjoint l r.StartBlock hchain hmono

/-! ## Lemmas about the work planner -/

/-- `backProcessStartBlock` as the planner computes it (work-planner source):
the module's initial block, overridden by the complete snapshot's exclusive
end when one exists. -/
def backProcessStartBlock (modInitBlock : Nat) (completeSnapshot : Option Nat) : Nat :=
  match completeSnapshot with
  | some e => e
  | none => modInitBlock

/-- When the classification loop returns, its result is the boundary walk,
filtered: the missing list accumulates the walked ranges without a partial
file on storage, the present list those with one.  (A returning run never
hit the division-by-zero or overflow failures, so the walk's plain
arithmetic matches the loop's step for step.) -/
theorem splitWorkLoop_filters (snapshots : Snapshots) (saveInterval reqStart : Nat) :
    ∀ fuel ptr missing present result,
      splitWorkLoop snapshots saveInterval reqStart fuel ptr missing present = some result →
      result =
        (missing ++ (specWalkRanges saveInterval reqStart fuel ptr).filter
            (fun r => !(snapshots.ContainsPartial r)),
         present ++ (specWalkRanges saveInterval reqStart fuel ptr).filter
            (fun r => snapshots.ContainsPartial r)) := by
  intro fuel
  induction fuel with
  | zero =>
    intro ptr missing present result h
    simp only [splitWorkLoop] at h
    by_cases hp : ptr < reqStart
    · rw [if_pos hp] at h
      cases h
    · rw [if_neg hp] at h
      injection h with h
      subst h
      simp [specWalkRanges]
  | succ fuel ih =>
    intro ptr missing present result h
    simp only [splitWorkLoop] at h
    simp only [specWalkRanges]
    by_cases hp : ptr < reqStart
    · rw [if_pos hp] at h
      rw [if_pos hp]
      by_cases hs0 : saveInterval = 0
      · rw [if_pos hs0] at h
        cases h
      · rw [if_neg hs0] at h
        by_cases hov : U64 ≤ ptr - ptr % saveInterval + saveInterval
        · rw [if_pos hov] at h
          cases h
        · rw [if_neg hov] at h
          by_cases hc : snapshots.ContainsPartial
              ⟨ptr, minOf (ptr - ptr % saveInterval + saveInterval) reqStart⟩ = true
          · rw [if_pos hc] at h
            have hres := ih _ _ _ _ h
            subst hres
            simp [List.filter_cons, hc, List.append_assoc]
          · rw [if_neg hc] at h
            have hres := ih _ _ _ _ h
            subst hres
            simp only [Bool.not_eq_true] at hc
            simp [List.filter_cons, hc, List.append_assoc]
    · rw [if_neg hp] at h
      rw [if_neg hp]
      injection h with h
      subst h
      simp

/-- Every range the boundary walk produces starts at or after the walk's
origin, starts before the request start, and ends at
`min(alignUp(start, saveInterval), reqStart)`. -/
theorem specWalkRanges_mem (saveInterval reqStart : Nat) (hsi : 0 < saveInterval) :
    ∀ fuel ptr r, r ∈ specWalkRanges saveInterval reqStart fuel ptr →
      ptr ≤ r.StartBlock ∧ r.StartBlock < reqStart ∧
      r.ExclusiveEndBlock =
        minOf (r.StartBlock - r.StartBlock % saveInterval + saveInterval) reqStart := by
  intro fuel
  induction fuel with
  | zero => intro ptr r hr; simp [specWalkRanges] at hr
  | succ fuel ih =>
    intro ptr r hr
    simp only [specWalkRanges] at hr
    by_cases hp : ptr < reqStart
    · rw [if_pos hp] at hr
      rcases List.mem_cons.mp hr with h | h
      · subst h
        refine ⟨by simp only []; omega, by simp only []; omega, rfl⟩
      · have h1 : ptr % saveInterval < saveInterval := Nat.mod_lt _ hsi
        have h2 : ptr % saveInterval ≤ ptr := Nat.mod_le _ _
        have hstep : ptr ≤ minOf (ptr - ptr % saveInterval + saveInterval) reqStart := by
          unfold minOf; split <;> omega
        have := ih (minOf (ptr - ptr % saveInterval + saveInterval) reqStart) r h
        exact ⟨by omega, this.2.1, this.2.2⟩
    · rw [if_neg hp] at hr
      simp at hr

/-- The boundary walk from at or past the request start is empty. -/
theorem specWalk_of_ge (saveInterval reqStart ptr : Nat) (h : reqStart ≤ ptr) :
    specWalk saveInterval reqStart ptr = [] := by
  unfold specWalk
  cases reqStart with
  | zero => rfl
  | succ n =>
    simp only [specWalkRanges]
    rw [if_neg (by omega)]

/-- C10: when the incoming request start is at or before the module's initial
block, `StoresSplitWork` returns the bare work unit — no initial store file,
no missing partials, no present partials — whatever the snapshots catalog
holds. -/
theorem c10_stores_split_work_trivial (modName : String)
    (storeSaveInterval modInitBlock incomingReqStartBlock : Nat) (snapshots : Snapshots)
    (h : incomingReqStartBlock ≤ modInitBlock) :
    StoresSplitWork modName storeSaveInterval modInitBlock incomingReqStartBlock snapshots =
      some ⟨modName, none, [], []⟩ := by
  unfold StoresSplitWork
  rw [if_pos h]

/-- C10 witness: the theorem at a concrete call whose catalog is non-empty. -/
theorem c10_stores_split_work_trivial_witness :
    StoresSplitWork "mod" 1000 500 400 ⟨[100, 200], [⟨100, 200⟩]⟩ =
      some ⟨"mod", none, [], []⟩ :=
  c10_stores_split_work_trivial "mod" 1000 500 400 ⟨[100, 200], [⟨100, 200⟩]⟩ (by decide)

/-- C1: the S4 scenario — `moduleInitialBlock = 0`, `saveInterval = 1000`,
`requestStart = 3500`, no complete snapshot, exactly the partial
`[1000, 2000)` on storage — produces no initial store file, missing partials
`[[0,1000), [2000,3000), [3000,3500)]` in that order and present partials
`[[1000,2000)]`; and in general (for a positive save interval and a request
start past the module's initial block) the planner's two lists are exactly
the save-interval boundary walk from `backProcessStartBlock`, classified by
whether a partial file for the range exists on storage, each walked range
ending at `min(alignUp(start, saveInterval), requestStart)`. -/
theorem c1_stores_split_work_plan :
    (StoresSplitWork "mod" 1000 0 3500 ⟨[], [⟨1000, 2000⟩]⟩ =
      some ⟨"mod", none, [⟨0, 1000⟩, ⟨2000, 3000⟩, ⟨3000, 3500⟩], [⟨1000, 2000⟩]⟩) ∧
    (∀ modName saveInterval modInitBlock reqStart snapshots w,
      0 < saveInterval → modInitBlock < reqStart →
      StoresSplitWork modName saveInterval modInitBlock reqStart snapshots = some w →
      w.partialsMissing =
        (specWalk saveInterval reqStart
            (backProcessStartBlock modInitBlock
              (snapshots.LastCompleteSnapshotBefore reqStart))).filter
          (fun r => !(snapshots.ContainsPartial r)) ∧
      w.partialsPresent =
        (specWalk saveInterval reqStart
            (backProcessStartBlock modInitBlock
              (snapshots.LastCompleteSnapshotBefore reqStart))).filter
          (fun r => snapshots.ContainsPartial r) ∧
      ∀ r ∈ specWalk saveInterval reqStart
          (backProcessStartBlock modInitBlock
            (snapshots.LastCompleteSnapshotBefore reqStart)),
        backProcessStartBlock modInitBlock
            (snapshots.LastCompleteSnapshotBefore reqStart) ≤ r.StartBlock ∧
        r.StartBlock < reqStart ∧
        r.ExclusiveEndBlock =
          minOf (r.StartBlock - r.StartBlock % saveInterval + saveInterval) reqStart ∧
        (r ∈ w.partialsPresent ↔ snapshots.ContainsPartial r = true)) := by
  constructor
  · decide
  · intro modName saveInterval modInitBlock reqStart snapshots w hsi hlt hw
    unfold StoresSplitWork at hw
    rw [if_neg (by omega)] at hw
    have main : w.partialsMissing =
        (specWalk saveInterval reqStart
            (backProcessStartBlock modInitBlock
              (snapshots.LastCompleteSnapshotBefore reqStart))).filter
          (fun r => !(snapshots.ContainsPartial r)) ∧
        w.partialsPresent =
        (specWalk saveInterval reqStart
            (backProcessStartBlock modInitBlock
              (snapshots.LastCompleteSnapshotBefore reqStart))).filter
          (fun r => snapshots.ContainsPartial r) := by
      cases hsnap : snapshots.LastCompleteSnapshotBefore reqStart with
      | some e =>
        rw [hsnap] at hw
        simp only [] at hw
        simp only [hsnap, backProcessStartBlock]
        by_cases he : e ≤ modInitBlock
        · rw [if_pos he] at hw
          cases hw
        · rw [if_neg he] at hw
          by_cases heq : e = reqStart
          · rw [if_pos heq] at hw
            cases hw
            rw [specWalk_of_ge saveInterval reqStart e (by omega)]
            simp
          · rw [if_neg heq] at hw
            cases hloop : splitWorkLoop snapshots saveInterval reqStart reqStart e [] [] with
            | none =>
              rw [hloop] at hw
              cases hw
            | some mp =>
              rw [hloop] at hw
              simp only [] at hw
              injection hw with hw
              subst hw
              have hmp := splitWorkLoop_filters snapshots saveInterval reqStart
                reqStart e [] [] mp hloop
              subst hmp
              exact ⟨rfl, rfl⟩
      | none =>
        rw [hsnap] at hw
        simp only [] at hw
        simp only [hsnap, backProcessStartBlock]
        cases hloop : splitWorkLoop snapshots saveInterval reqStart reqStart modInitBlock [] [] with
        | none =>
          rw [hloop] at hw
          cases hw
        | some mp =>
          rw [hloop] at hw
          simp only [] at hw
          injection hw with hw
          subst hw
          have hmp := splitWorkLoop_filters snapshots saveInterval reqStart
            reqStart modInitBlock [] [] mp hloop
          subst hmp
          exact ⟨rfl, rfl⟩
    refine ⟨main.1, main.2, ?_⟩
    intro r hr
    have hm := specWalkRanges_mem saveInterval reqStart hsi reqStart
      (backProcessStartBlock modInitBlock (snapshots.LastCompleteSnapshotBefore reqStart)) r hr
    refine ⟨hm.1, hm.2.1, hm.2.2, ?_⟩
    rw [main.2]
    constructor
    · intro hmem
      exact (List.mem_filter.mp hmem).2
    · intro hc
      exact List.mem_filter.mpr ⟨hr, hc⟩

/-- C1 witness: the general half of the theorem applied at the S4 scenario
itself. -/
theorem c1_stores_split_work_plan_witness :
    StoresSplitWork "mod" 1000 0 3500 ⟨[], [⟨1000, 2000⟩]⟩ =
      some ⟨"mod", none, [⟨0, 1000⟩, ⟨2000, 3000⟩, ⟨3000, 3500⟩], [⟨1000, 2000⟩]⟩ ∧
    (WorkUnit.mk "mod" none [⟨0, 1000⟩, ⟨2000, 3000⟩, ⟨3000, 3500⟩]
        [⟨1000, 2000⟩]).partialsMissing =
      (specWalk 1000 3500
          (backProcessStartBlock 0
            ((Snapshots.mk [] [⟨1000, 2000⟩]).LastCompleteSnapshotBefore 3500))).filter
        (fun r => !((Snapshots.mk [] [⟨1000, 2000⟩]).ContainsPartial r)) :=
  ⟨c1_stores_split_work_plan.1,
    (c1_stores_split_work_plan.2 "mod" 1000 0 3500 ⟨[], [⟨1000, 2000⟩]⟩
      ⟨"mod", none, [⟨0, 1000⟩, ⟨2000, 3000⟩, ⟨3000, 3500⟩], [⟨1000, 2000⟩]⟩
      (by decide) (by decide) c1_stores_split_work_plan.1).1⟩

/-- C2 counterexample: for a mapper module, the planner does *not* set the
initial file to `[moduleInitialBlock, S.end)`.  With a complete snapshot
ending at 2000 and request start 3000, `MapsSplitWork` records
`[3000, 2000)` — its start is the request start, not the module's initial
block (0, say). -/
theorem c2_counterexample :
    MapsSplitWork "m" 1000 3000 ⟨[2000], []⟩ =
      some ⟨"m", some ⟨3000, 2000⟩, [⟨2000, 3000⟩], []⟩ ∧
    (some (Range.mk 3000 2000) : Option Range) ≠ some ⟨0, 2000⟩ := by
  exact ⟨by decide, by decide⟩

/-- C2 (amended as the counterexample forces): when a latest complete
snapshot `S` with `S.end ≤ requestStart` exists and the planner returns a
work unit (the Go functions return nothing on the init-block panic, a zero
save interval's division-by-zero panic, or a non-terminating walk),
`StoresSplitWork` sets `initialStoreFile = [moduleInitialBlock, S.end)`
(provided the module's initial block precedes both `S.end` — otherwise the
Go code panics — and the request start), while `MapsSplitWork` sets
`initialStoreFile = [requestStart, S.end)`. -/
theorem c2_initial_store_file :
    (∀ (modName : String) (saveInterval modInitBlock reqStart : Nat)
        (snapshots : Snapshots) (e : Nat) (w : WorkUnit),
      modInitBlock < reqStart →
      snapshots.LastCompleteSnapshotBefore reqStart = some e →
      modInitBlock < e →
      StoresSplitWork modName saveInterval modInitBlock reqStart snapshots = some w →
      w.initialStoreFile = some ⟨modInitBlock, e⟩) ∧
    (∀ (modName : String) (saveInterval reqStart : Nat) (snapshots : Snapshots)
        (e : Nat) (w : WorkUnit),
      snapshots.LastCompleteSnapshotBefore reqStart = some e →
      MapsSplitWork modName saveInterval reqStart snapshots = some w →
      w.initialStoreFile = some ⟨reqStart, e⟩) := by
  constructor
  · intro modName saveInterval modInitBlock reqStart snapshots e w hlt hsnap he hw
    unfold StoresSplitWork at hw
    rw [if_neg (by omega), hsnap] at hw
    simp only [] at hw
    rw [if_neg (by omega : ¬ e ≤ modInitBlock)] at hw
    by_cases heq : e = reqStart
    · rw [if_pos heq] at hw
      cases hw
      rfl
    · rw [if_neg heq] at hw
      cases hloop : splitWorkLoop snapshots saveInterval reqStart reqStart e [] [] with
      | none =>
        rw [hloop] at hw
        cases hw
      | some mp =>
        rw [hloop] at hw
        simp only [] at hw
        injection hw with hw
        subst hw
        rfl
  · intro modName saveInterval reqStart snapshots e w hsnap hw
    unfold MapsSplitWork at hw
    rw [hsnap] at hw
    simp only [] at hw
    by_cases heq : e = reqStart
    · rw [if_pos heq] at hw
      cases hw
      rfl
    · rw [if_neg heq] at hw
      cases hloop : splitWorkLoop snapshots saveInterval reqStart reqStart e [] [] with
      | none =>
        rw [hloop] at hw
        cases hw
      | some mp =>
        rw [hloop] at hw
        simp only [] at hw
        injection hw with hw
        subst hw
        rfl

/-- C2 witness: both halves at concrete returning calls. -/
theorem c2_initial_store_file_witness :
    (WorkUnit.mk "s" (some ⟨100, 2000⟩) [⟨2000, 3000⟩] []).initialStoreFile =
      some ⟨100, 2000⟩ ∧
    (WorkUnit.mk "m" (some ⟨3000, 2000⟩) [⟨2000, 3000⟩] []).initialStoreFile =
      some ⟨3000, 2000⟩ :=
  ⟨c2_initial_store_file.1 "s" 1000 100 3000 ⟨[2000], []⟩ 2000
      ⟨"s", some ⟨100, 2000⟩, [⟨2000, 3000⟩], []⟩ (by decide) (by decide) (by decide)
      (by decide),
    c2_initial_store_file.2 "m" 1000 3000 ⟨[2000], []⟩ 2000
      ⟨"m", some ⟨3000, 2000⟩, [⟨2000, 3000⟩], []⟩ (by decide) (by decide)⟩

/-- C4 witness: the amended theorem applied at the concrete range `[0, 5)`
with chunk size 2. -/
theorem c4_split_covering_partition_witness :
    ∃ l, Range.Split ⟨0, 5⟩ 2 = some l ∧
      l ≠ [] ∧
      isChainedFrom 0 l = true ∧
      lastEndOr 0 l = 5 ∧
      (∀ n, (Range.mk 0 5).Contains n = true ↔ ∃ rr ∈ l, rr.Contains n = true) ∧
      List.Pairwise (fun a b => ∀ n, ¬(a.Contains n = true ∧ b.Contains n = true)) l :=
  c4_split_covering_partition ⟨0, 5⟩ 2 (by decide) (by decide) (by decide)

/-! ## Store max-policy claims -/

/-- C3: for a max-policy store, each of `SetMaxInt64`, `SetMaxBigInt`,
`SetMaxFloat64` and `SetMaxBigFloat` writes the candidate when the key is
absent, and otherwise replaces the stored value iff the candidate is
numerically greater than it (comparing exactly, per the value type's decimal
text encoding), leaving `kv` unchanged otherwise; consequently the S1
sequence `SetMaxInt64(0,"k",3); SetMaxInt64(1,"k",5); SetMaxInt64(2,"k",4)`
leaves `GetAt "k" = "5"`.  Float candidates are given by their exact decimal
value `m · 10^(-d)`. -/
theorem c3_set_max_strictly_improves :
    (∀ (kv : KV) (ord : Nat) (key : String) (candidate : Int),
      kvGet kv key = none →
      SetMaxInt64 kv ord key candidate = kvSet kv key (toString candidate) ∧
      SetMaxBigInt kv ord key candidate = kvSet kv key (toString candidate)) ∧
    (∀ (kv : KV) (ord : Nat) (key : String) (candidate : Int) (s : String) (v : Int),
      kvGet kv key = some s → parseDecInt s = some v →
      SetMaxInt64 kv ord key candidate =
        (if v < candidate then kvSet kv key (toString candidate) else kv) ∧
      SetMaxBigInt kv ord key candidate =
        (if v < candidate then kvSet kv key (toString candidate) else kv)) ∧
    (∀ (kv : KV) (ord : Nat) (key : String) (m : Int) (d : Nat),
      kvGet kv key = none →
      SetMaxFloat64 kv ord key m d = kvSet kv key (formatDecFloat m d) ∧
      SetMaxBigFloat kv ord key m d = kvSet kv key (formatDecFloat m d)) ∧
    (∀ (kv : KV) (ord : Nat) (key : String) (m : Int) (d : Nat) (s : String)
        (pm : Int) (pd : Nat),
      kvGet kv key = some s → parseDecFloat s = some (pm, pd) →
      SetMaxFloat64 kv ord key m d =
        (if pm * (10 : Int) ^ d < m * (10 : Int) ^ pd then
          kvSet kv key (formatDecFloat m d)
        else kv) ∧
      SetMaxBigFloat kv ord key m d =
        (if pm * (10 : Int) ^ d < m * (10 : Int) ^ pd then
          kvSet kv key (formatDecFloat m d)
        else kv)) ∧
    (GetAt (SetMaxInt64 (SetMaxInt64 (SetMaxInt64 [] 0 "k" 3) 1 "k" 5) 2 "k" 4) 0 "k" =
      some "5") := by
  refine ⟨?_, ?_, ?_, ?_, ?_⟩
  · intro kv ord key candidate h
    constructor <;> simp [SetMaxInt64, SetMaxBigInt, setMaxIntLike, h]
  · intro kv ord key candidate s v hs hv
    constructor <;> simp [SetMaxInt64, SetMaxBigInt, setMaxIntLike, hs, hv]
  · intro kv ord key m d h
    constructor <;> simp [SetMaxFloat64, SetMaxBigFloat, setMaxFloatLike, h]
  · intro kv ord key m d s pm pd hs hv
    constructor <;> simp [SetMaxFloat64, SetMaxBigFloat, setMaxFloatLike, hs, hv]
  · decide

/-- C3 witness: the present-key halves of the theorem at the stored value
"3" with integer candidate 5, and at the stored value "3.5" with float
candidate 4.5 (= 45·10^(-1)), where each candidate wins. -/
theorem c3_set_max_strictly_improves_witness :
    kvGet [("k", "3")] "k" = some "3" ∧
    parseDecInt "3" = some 3 ∧
    SetMaxInt64 [("k", "3")] 1 "k" 5 =
      (if (3 : Int) < 5 then kvSet [("k", "3")] "k" (toString (5 : Int)) else [("k", "3")]) ∧
    parseDecFloat "3.5" = some (35, 1) ∧
    SetMaxFloat64 [("k", "3.5")] 1 "k" 45 1 =
      (if (35 : Int) * (10 : Int) ^ 1 < 45 * (10 : Int) ^ 1 then
        kvSet [("k", "3.5")] "k" (formatDecFloat 45 1)
      else [("k", "3.5")]) :=
  ⟨by decide, by decide,
    (c3_set_max_strictly_improves.2.1 [("k", "3")] 1 "k" 5 "3" 3 (by decide) (by decide)).1,
    by decide,
    (c3_set_max_strictly_improves.2.2.2.1 [("k", "3.5")] 1 "k" 45 1 "3.5" 35 1
      (by decide) (by decide)).1⟩

/-! ## WASM execution contract claims -/

/-- C5 counterexample: the claim requires an error whenever the panic slot is
set at return time, but `Instance.Execute` returns success (`none`) when the
guest entry point returns normally or exits with code 0 — even with the
panic slot set. -/
theorem c5_counterexample :
    WasmInstance.Execute ⟨"main", some "boom"⟩ EntrypointResult.completed = none ∧
    WasmInstance.Execute ⟨"main", some "boom"⟩ (EntrypointResult.exited 0) = none :=
  ⟨rfl, rfl⟩

/-- C5 (amended as the counterexample forces): `Execute` returns success when
the entry point returns normally or exits with code 0, regardless of the
panic slot; for every nonzero exit code and every trap it returns an error —
the recorded panic error when the panic slot is set, a wrapped entrypoint
error otherwise. -/
theorem c5_execute_error_contract :
    ∀ (i : WasmInstance) (exitCode : Nat) (message : String),
      exitCode ≠ 0 →
      i.Execute .completed = none ∧
      i.Execute (.exited 0) = none ∧
      i.Execute (.exited exitCode) =
        (match i.panicError with
          | some p => some (.panicked p)
          | none => some (.entrypointFailed i.functionName "exit status")) ∧
      i.Execute (.trapped message) =
        (match i.panicError with
          | some p => some (.panicked p)
          | none => some (.entrypointFailed i.functionName message)) := by
  intro i exitCode message h
  refine ⟨rfl, rfl, ?_, rfl⟩
  simp only [WasmInstance.Execute]
  rw [if_neg h]

/-- C5 witness: the amended theorem at exit code 7 with the panic slot set. -/
theorem c5_execute_error_contract_witness :
    (7 : Nat) ≠ 0 ∧
    WasmInstance.Execute ⟨"main", some "boom"⟩ (EntrypointResult.exited 7) =
      some (ExecuteError.panicked "boom") :=
  ⟨by decide, by
    have h := (c5_execute_error_contract ⟨"main", some "boom"⟩ 7 "t" (by decide)).2.2.1
    simpa using h⟩

/-! ## Module executor claims -/

/-- C6: when every source-type input's bytes in the per-block values map are
empty and no store is bound in get mode, the executor skips WASM entirely
(`hasInput` is false, so no instance is created for any guest behavior) and
records an empty (nil) output both as the mapper output and in the values
map under the module's name. -/
theorem c6_skip_execution_on_empty_inputs :
    ∀ (behavior : WasmExecBehavior) (vals : Vals) (inputs : List WasmInput)
      (moduleName : String),
      (∀ name, WasmInput.InputSource name ∈ inputs → valLen (valsGet vals name) = 0) →
      WasmInput.InputStore ∉ inputs →
      hasInput vals inputs = false ∧
      wasmMapCall behavior vals inputs moduleName =
        Except.ok (valsSet vals moduleName none, none, 0) := by
  intro behavior vals inputs moduleName hsrc hstore
  have hhi : hasInput vals inputs = false := by
    simp only [hasInput, List.any_eq_false]
    intro input hin
    cases input with
    | InputSource name =>
      have := hsrc name hin
      simp [this]
    | InputStore => exact absurd hin hstore
    | OutputStore => simp
  refine ⟨hhi, ?_⟩
  unfold wasmMapCall wasmCall
  rw [hhi]
  rfl

/-- C6 witness: the theorem at a module with one empty source input and its
own output store, under a guest behavior that would produce output if it
ever ran. -/
theorem c6_skip_execution_on_empty_inputs_witness :
    hasInput [("a", none)] [WasmInput.InputSource "a", WasmInput.OutputStore] = false ∧
    wasmMapCall ⟨some "out", none⟩ [("a", none)]
        [WasmInput.InputSource "a", WasmInput.OutputStore] "m" =
      Except.ok (valsSet [("a", none)] "m" none, none, 0) :=
  c6_skip_execution_on_empty_inputs ⟨some "out", none⟩ [("a", none)]
    [WasmInput.InputSource "a", WasmInput.OutputStore] "m"
    (by
      intro name hin
      rcases List.mem_cons.mp hin with h | h
      · cases h
        decide
      · rcases List.mem_cons.mp h with h2 | h2
        · cases h2
        · simp at h2)
    (by decide)

/-- C7: on a cache hit the mapper executor's run stores the cached bytes as
the mapper output and succeeds with the cache and values map untouched and
zero WASM executions; consequently re-running a fully cached block list
performs zero WASM executions and leaves cache and values unchanged. -/
theorem c7_cache_hit_skips_wasm :
    (∀ (behavior : WasmExecBehavior) (cache : OutputCache) (vals : Vals)
        (inputs : List WasmInput) (moduleName : String) (clock : Clock)
        (cursor : String) (output : Option String),
      cacheGet cache clock.number = some output →
      MapperModuleExecutorRun behavior cache vals inputs moduleName clock cursor =
        Except.ok ⟨output, cache, vals, 0⟩) ∧
    (∀ (behavior : WasmExecBehavior) (cache : OutputCache) (vals : Vals)
        (inputs : List WasmInput) (moduleName cursor : String) (clocks : List Clock),
      (∀ clock ∈ clocks, (cacheGet cache clock.number).isSome) →
      mapperRunBlocks behavior inputs moduleName cursor cache vals clocks =
        Except.ok (cache, vals, 0)) := by
  have hrun : ∀ (behavior : WasmExecBehavior) (cache : OutputCache) (vals : Vals)
      (inputs : List WasmInput) (moduleName : String) (clock : Clock)
      (cursor : String) (output : Option String),
      cacheGet cache clock.number = some output →
      MapperModuleExecutorRun behavior cache vals inputs moduleName clock cursor =
        Except.ok ⟨output, cache, vals, 0⟩ := by
    intro behavior cache vals inputs moduleName clock cursor output h
    unfold MapperModuleExecutorRun
    rw [h]
  refine ⟨hrun, ?_⟩
  intro behavior cache vals inputs moduleName cursor clocks
  induction clocks with
  | nil => intro _; rfl
  | cons clock rest ih =>
    intro hall
    obtain ⟨output, ho⟩ :=
      Option.isSome_iff_exists.mp (hall clock (List.mem_cons_self clock rest))
    unfold mapperRunBlocks
    rw [hrun behavior cache vals inputs moduleName clock cursor output ho]
    simp only []
    rw [ih (fun c hc => hall c (List.mem_cons_of_mem clock hc))]

/-- C7 witness: both halves at a concretely cached block 5. -/
theorem c7_cache_hit_skips_wasm_witness :
    MapperModuleExecutorRun ⟨some "o", none⟩ [(5, some "payload")] [] [] "m" ⟨5, "id"⟩ "c" =
      Except.ok ⟨some "payload", [(5, some "payload")], [], 0⟩ ∧
    mapperRunBlocks ⟨some "o", none⟩ [] "m" "c" [(5, some "payload")] [] [⟨5, "id"⟩] =
      Except.ok ([(5, some "payload")], [], 0) :=
  ⟨c7_cache_hit_skips_wasm.1 ⟨some "o", none⟩ [(5, some "payload")] [] [] "m" ⟨5, "id"⟩ "c"
      (some "payload") (by decide),
    c7_cache_hit_skips_wasm.2 ⟨some "o", none⟩ [(5, some "payload")] [] [] "m" "c"
      [⟨5, "id"⟩] (by decide)⟩

/-! ## Progress message claims -/

/-- C8 counterexample: a module whose work unit has present partials but no
initial store file gets *no* progress message — `ProgressMessages` skips it
(`continue` in the source), while the claim requires one message per module
of the plan. -/
theorem c8_counterexample :
    ProgressMessages [("modA", ⟨"modA", none, [], [⟨1000, 2000⟩]⟩)] = [] :=
  rfl

/-- C8 (amended as the counterexample forces): `ProgressMessages` emits one
message per module of the plan *whose initial store file is present* — its
name together with the initial file's range followed by the merged
`partialsPresent` — and skips modules without an initial store file. -/
theorem c8_progress_messages_initial_plus_merged :
    ∀ plan : List (String × WorkUnit),
      (ProgressMessages plan).length =
        (plan.filter (fun x => x.2.initialStoreFile.isSome)).length ∧
      (∀ (modName : String) (unit : WorkUnit) (initial : Range),
        (modName, unit) ∈ plan →
        unit.initialStoreFile = some initial →
        ModuleProgress.mk modName (initial :: RangesMerged unit.partialsPresent) ∈
          ProgressMessages plan) := by
  intro plan
  induction plan with
  | nil =>
    refine ⟨rfl, ?_⟩
    intro modName unit initial h _
    simp at h
  | cons hd rest ih =>
    obtain ⟨n0, u0⟩ := hd
    constructor
    · cases hu : u0.initialStoreFile with
      | none => simp [ProgressMessages, List.filter_cons, hu, ih.1]
      | some i0 => simp [ProgressMessages, List.filter_cons, hu, ih.1]
    · intro modName unit initial hmem hinit
      rcases List.mem_cons.mp hmem with h | h
      · cases h
        simp only [ProgressMessages, hinit]
        exact List.mem_cons.mpr (Or.inl rfl)
      · have hrec := ih.2 modName unit initial h hinit
        cases hu : u0.initialStoreFile with
        | none =>
          simp only [ProgressMessages, hu]
          exact hrec
        | some i0 =>
          simp only [ProgressMessages, hu]
          exact List.mem_cons_of_mem _ hrec

/-- C8 witness: the amended theorem at a one-module plan with an initial
store file and two present partials. -/
theorem c8_progress_messages_initial_plus_merged_witness :
    (ProgressMessages [("modA", ⟨"modA", some ⟨0, 1000⟩, [], [⟨1000, 2000⟩, ⟨2000, 2500⟩]⟩)]).length =
      (([(("modA" : String), (⟨"modA", some ⟨0, 1000⟩, [], [⟨1000, 2000⟩, ⟨2000, 2500⟩]⟩ : WorkUnit))]).filter
        (fun x => x.2.initialStoreFile.isSome)).length ∧
    ModuleProgress.mk "modA" (⟨0, 1000⟩ :: RangesMerged [⟨1000, 2000⟩, ⟨2000, 2500⟩]) ∈
      ProgressMessages [("modA", ⟨"modA", some ⟨0, 1000⟩, [], [⟨1000, 2000⟩, ⟨2000, 2500⟩]⟩)] :=
  ⟨(c8_progress_messages_initial_plus_merged
      [("modA", ⟨"modA", some ⟨0, 1000⟩, [], [⟨1000, 2000⟩, ⟨2000, 2500⟩]⟩)]).1,
    (c8_progress_messages_initial_plus_merged
      [("modA", ⟨"modA", some ⟨0, 1000⟩, [], [⟨1000, 2000⟩, ⟨2000, 2500⟩]⟩)]).2
      "modA" ⟨"modA", some ⟨0, 1000⟩, [], [⟨1000, 2000⟩, ⟨2000, 2500⟩]⟩ ⟨0, 1000⟩
      (List.mem_singleton.mpr rfl) rfl⟩

end Substreams
